import Mathlib

/-!
Shallow embedding of `holoviews/core/pprint.py` — the `PrettyPrinter`
class: the recursive tree renderer (`pprint`, `serialize`, `shift`,
`padding`, `component_type`, `recurse`, `node_info`, `element_info`,
`option_info`, `format_options`, `adjointlayout_info`,
`ndmapping_info`).

Nodes of the external object hierarchy are modelled as a closed
inductive capturing exactly the capabilities the renderer inspects:
`hasattr(node, 'children')` (Container / AttrTree), `hasattr(node,
'main')` (Composite / AdjointLayout), `getattr(node,
'_deep_indexable', False)` (IndexedMapping / NdMapping),
`hasattr(node, 'unit_format')` (scalar, e.g. a Dimension), else a
plain Element.  Because the capability flags are not mutually
exclusive in the Python object model, the container and composite
constructors carry an explicit `_deep_indexable` flag.
-/

namespace PPrint

/-- A node of the external object hierarchy, by renderer-relevant
capabilities.  `container`: keyed child mapping (`children` attribute,
keys already `'.'`-joined); `composite`: `main` attribute with
positional `data.values()`; `ndmapping`: deep-indexable ordered
mapping; `unitval`: object with a `unit_format` attribute, printed via
`repr`; `element`: plain element with key/value dimensions (dimension
objects modelled by their `.name` strings). -/
inductive Node : Type where
  | container (typeName : String) (deep_indexable : Bool)
      (children : List (String × Node))
  | composite (typeName : String) (deep_indexable : Bool)
      (kdims : List String) (dataVals : List Node)
  | ndmapping (typeName : String) (kdims : List String) (dataVals : List Node)
  | unitval (typeName : String) (reprStr : String)
  | element (typeName : String) (kdims : List String) (vdims : List String)
deriving Repr

namespace Node

/-- Python `type(node).__name__`. -/
def typeName : Node → String
  | container t _ _ => t
  | composite t _ _ _ => t
  | ndmapping t _ _ => t
  | unitval t _ => t
  | element t _ _ => t

/-- Python `hasattr(node, 'children')`. -/
def hasChildren : Node → Bool
  | container _ _ _ => true
  | _ => false

/-- Python `hasattr(node, 'main')`. -/
def hasMain : Node → Bool
  | composite _ _ _ _ => true
  | _ => false

/-- Python `getattr(node, '_deep_indexable', False)`. -/
def deep_indexable : Node → Bool
  | container _ di _ => di
  | composite _ di _ _ => di
  | ndmapping _ _ _ => true
  | _ => false

/-- Python `hasattr(node, 'unit_format')`. -/
def hasUnitFormat : Node → Bool
  | unitval _ _ => true
  | _ => false

/-- Python `repr(node)` for a scalar/unit-style node (only ever used on the
`unitval` branch of `node_info`). -/
def reprStr : Node → String
  | unitval _ r => r
  | _ => ""

/-- Python `[d.name for d in node.kdims]`. -/
def kdims : Node → List String
  | composite _ _ kd _ => kd
  | ndmapping _ kd _ => kd
  | element _ kd _ => kd
  | _ => []

/-- Python `[d.name for d in node.vdims]`. -/
def vdims : Node → List String
  | element _ _ vd => vd
  | _ => []

/-- Python `list(node.data.values())`. -/
def dataVals : Node → List Node
  | composite _ _ _ d => d
  | ndmapping _ _ d => d
  | _ => []

/-- Python `['.'.join(k) for k in node.keys()]` when `hasattr(node,
'children')`, else `[]` (the normalisation done inside `recurse`). -/
def childrenKeys : Node → List String
  | container _ _ children => children.map Prod.fst
  | _ => []

/-- Python `node.get(attrpath)`: keyed child lookup on an AttrTree
(external); `none` models the absent-key case. -/
def get : Node → String → Option Node
  | container _ _ children, k => (children.find? (fun p => p.1 == k)).map Prod.snd
  | _, _ => none

theorem sizeOf_lt_of_mem_dataVals {x : Node} {n : Node}
    (h : x ∈ n.dataVals) : sizeOf x < sizeOf n := by
  cases n with
  | container t di children => simp [dataVals] at h
  | composite t di kd d =>
    have hx := List.sizeOf_lt_of_mem h
    simp [dataVals] at hx
    simp only [composite.sizeOf_spec]
    omega
  | ndmapping t kd d =>
    have hx := List.sizeOf_lt_of_mem h
    simp [dataVals] at hx
    simp only [ndmapping.sizeOf_spec]
    omega
  | unitval t r => simp [dataVals] at h
  | element t kd vd => simp [dataVals] at h

theorem sizeOf_dataVals_lt (n : Node) : sizeOf n.dataVals < sizeOf n := by
  have hnil : sizeOf ([] : List Node) = 1 := by simp
  cases n with
  | container t di children =>
    have hc : 0 < sizeOf children := by cases children <;> simp_arith
    simp only [dataVals, container.sizeOf_spec, hnil]
    omega
  | composite t di kd d =>
    simp only [dataVals, composite.sizeOf_spec]
    omega
  | ndmapping t kd d =>
    simp only [dataVals, ndmapping.sizeOf_spec]
    omega
  | unitval t r =>
    have hr : 0 < sizeOf r := by cases r; simp_arith
    simp only [dataVals, unitval.sizeOf_spec, hnil]
    omega
  | element t kd vd =>
    have hv : 0 < sizeOf vd := by cases vd <;> simp_arith
    simp only [dataVals, element.sizeOf_spec, hnil]
    omega

theorem sizeOf_lt_of_get {n : Node} {k : String} {c : Node}
    (h : n.get k = some c) : sizeOf c < sizeOf n := by
  cases n with
  | container t di children =>
    simp only [get, Option.map_eq_some'] at h
    obtain ⟨p, hp, hpc⟩ := h
    have hmem := List.mem_of_find?_eq_some hp
    have hps := List.sizeOf_lt_of_mem hmem
    have : sizeOf p.2 < sizeOf p := by
      cases p with
      | mk a b => simp_arith
    simp only [container.sizeOf_spec]
    subst hpc
    omega
  | composite t di kd d => simp [get] at h
  | ndmapping t kd d => simp [get] at h
  | unitval t r => simp [get] at h
  | element t kd vd => simp [get] at h

end Node

/-- A rendered line: `(indent level, text)`. -/
abbrev RenderLine := Int × String

/-- Rendering configuration together with the external collaborators
the renderer consults.  `show_options` / `show_defaults` are the
`param.Boolean` flags on `PrettyPrinter`.  The remaining fields model
code outside this module (`holoviews/core/options.py` and Python's
`textwrap`): `option_groups` is `Options._option_groups`;
`lookup_options` models `Store.lookup_options(Store.current_backend,
node, group, defaults=show_defaults)`, keyed — as the code passes it
and as the spec words it — by the node itself together with the option
group name (modelled from the spec: the option store is an external
lookup keyed by (backend, node, option-group-name) returning a kwargs
mapping or nothing); `options_repr` models `str(Options(**kwargs))`;
`wrap` models
`textwrap.TextWrapper(width=100, subsequent_indent=...).wrap`. -/
structure Config : Type where
  show_options : Bool
  show_defaults : Bool
  option_groups : List String
  lookup_options : Bool → Node → String → Option (List (String × String))
  options_repr : List (String × String) → String
  wrap : String → List String

/-- Python `PrettyPrinter.tab`. -/
def tab : String := "   "

/-- Python `PrettyPrinter.type_formatter.format(type=...)`: the `':{type}'`
format string applied to a type name. -/
def type_formatter (t : String) : String := ":" ++ t

/-- Python `component_type(node)`: `''` for `None`, else the formatted type
tag. -/
def component_type : Option Node → String
  | none => ""
  | some n => type_formatter n.typeName

/-- Python `shift(lines, shift)`: `[(lvl+shift, line) for (lvl, line) in
lines]`. -/
def shift (lines : List RenderLine) (s : Int) : List RenderLine :=
  lines.map (fun p => (p.1 + s, p.2))

/-- Python `padding(items)`: `max(len(p) for p in items) if len(items) > 1
else len(items[0])`.  `none` models the exception Python raises when
`items` is empty (`items[0]` out of range). -/
def padding (items : List String) : Option Nat :=
  if 1 < items.length then some ((items.map String.length).foldl Nat.max 0)
  else items.head?.map String.length

/-- Python `str.ljust`: pad on the right with spaces to width `w`. -/
def ljust (s : String) (w : Nat) : String :=
  s ++ String.mk (List.replicate (w - s.length) ' ')

/-- Python `level * tab` for an integer `level` (empty for
non-positive levels). -/
def strTimes (n : Int) (s : String) : String :=
  String.join (List.replicate n.toNat s)

/-- Python `serialize(lines)`: accumulate `(level * tab) + line` per line and
join with newlines. -/
def serialize (lines : List RenderLine) : String :=
  let accumulator := lines.map (fun p => strTimes p.1 tab ++ p.2)
  String.intercalate "\n" accumulator

/-- Python `dict.update` with a single key/value pair over an
insertion-ordered association list: overwrite in place if the key is
present, else append. -/
def dictInsert (d : List (String × String)) (kv : String × String) :
    List (String × String) :=
  if d.any (fun p => p.1 == kv.1) then
    d.map (fun p => if p.1 == kv.1 then (p.1, kv.2) else p)
  else d ++ [kv]

/-- Python `dict.update` with a whole mapping. -/
def dictUpdate (d : List (String × String)) (new : List (String × String)) :
    List (String × String) :=
  new.foldl dictInsert d

/-- Python `option_info(node)`: `None` unless `show_options`; otherwise merge
the kwargs of every option group the store returns (later groups
overwrite earlier keys) and drop the reserved `'backend'` key. -/
def option_info (c : Config) (n : Node) : Option (List (String × String)) :=
  if !c.show_options then none
  else
    let options := c.option_groups.foldl (fun acc g =>
      match c.lookup_options c.show_defaults n g with
      | some gopts => dictUpdate acc gopts
      | none => acc) []
    some (options.filter (fun kv => kv.1 ≠ "backend"))

/-- Python `format_options(opts)`: wrap `str(opts)` and mark each wrapped
line with a `' | '` separator glyph. -/
def format_options (c : Config) (kw : List (String × String)) : List String :=
  (c.wrap (c.options_repr kw)).map (fun l => " | " ++ l)

/-- Python `element_info(node, ...)`: type tag, then (tab-separated) the
bracketed key-dimension names if any, then the parenthesised
value-dimension names if `value_dims` display is on. -/
def element_info (n : Node) (_siblings : List (Option Node)) (level : Int)
    (value_dims : Bool) : Int × List RenderLine :=
  let info := component_type (some n)
  let info := if 1 ≤ n.kdims.length then
      info ++ tab ++ "[" ++ String.intercalate "," n.kdims ++ "]"
    else info
  let info := if value_dims && 1 ≤ n.vdims.length then
      info ++ tab ++ "(" ++ String.intercalate "," n.vdims ++ ")"
    else info
  (level, [(level, info)])

/-- Rewrite the first line of a summary by prepending a label string
(the `lines[0] = (fst_lvl, line)` assignment in `node_info`); the
empty case is unreachable during a render (summaries are nonempty). -/
def prepend_first (pre : String) : List RenderLine → List RenderLine
  | [] => []
  | (l, t) :: rest => (l, pre ++ t) :: rest

/-- The tail of `node_info` after the per-variant dispatch: apply the
attribute-path label as a prefix to the first summary line (padded to
the sibling column width), then append the formatted options at the
first line's level.  `(lvl, lines, opts)` is the dispatch result. -/
def node_info_finish (c : Config) (ap : Option String) (attrpaths : List String)
    (level : Int) (r : Int × List RenderLine × Option (List (String × String))) :
    Int × List RenderLine :=
  let lvl := r.1
  let lines := r.2.1
  let opts := r.2.2
  let fst_lvl :=
    match ap, lines with
    | some _, (l0, _) :: _ => l0
    | _, _ => level
  let lines :=
    match ap with
    | some a =>
        prepend_first ("." ++ ljust a ((padding attrpaths).getD 0) ++ " ") lines
    | none => lines
  let lines :=
    match opts with
    | some kw =>
        if c.show_options && !kw.isEmpty then
          lines ++ (format_options c kw).map (fun l => (fst_lvl, l))
        else lines
    | none => lines
  (lvl, lines)

theorem mem_of_getLast?_eq_some {α : Type} {l : List α} {a : α}
    (h : l.getLast? = some a) : a ∈ l := by
  induction l with
  | nil => simp [List.getLast?] at h
  | cons x xs ih =>
    cases xs with
    | nil =>
      simp [List.getLast?] at h
      simp [h]
    | cons y ys =>
      rw [List.getLast?_cons_cons] at h
      exact List.mem_cons_of_mem x (ih h)

mutual

/-- Python `recurse(node, attrpath, attrpaths, siblings, level, value_dims)`:
summarise the node via `node_info`, then visit every named child (the
`for attrpath in attrpaths` loop, `recurse_children` below) at
`level+1`. -/
def recurse (c : Config) (n : Node) (attrpath : Option String)
    (attrpaths : List String) (siblings : List (Option Node))
    (level : Int) (value_dims : Bool) : List RenderLine :=
  let r := node_info c n attrpath attrpaths siblings level value_dims
  let attrpaths2 := n.childrenKeys
  let siblings2 := attrpaths2.map n.get
  r.2 ++ recurse_children c n attrpaths2 attrpaths2 siblings2 r.1 value_dims
termination_by (sizeOf n, 4, 0)

/-- The `for attrpath in attrpaths: lines += cls.recurse(...)` loop of
`recurse`, iterating over the remaining `keys`. -/
def recurse_children (c : Config) (n : Node) (keys : List String)
    (attrpaths : List String) (siblings : List (Option Node))
    (lvl : Int) (value_dims : Bool) : List RenderLine :=
  match keys with
  | [] => []
  | k :: rest =>
    (match h : n.get k with
     | some child =>
         recurse c child (some k) attrpaths siblings (lvl + 1) value_dims
     | none => []) ++
    recurse_children c n rest attrpaths siblings lvl value_dims
termination_by (sizeOf n, 3, keys.length)
decreasing_by
all_goals
  first
  | (have hlt := Node.sizeOf_lt_of_get h; decreasing_tactic)
  | decreasing_tactic

/-- Python `node_info(node, attrpath, attrpaths, siblings, level,
value_dims)`: per-variant dispatch followed by the attribute-path
prefix and option overlay. -/
def node_info (c : Config) (n : Node) (attrpath : Option String)
    (attrpaths : List String) (siblings : List (Option Node))
    (level : Int) (value_dims : Bool) : Int × List RenderLine :=
  node_info_finish c attrpath attrpaths level
    (node_info_dispatch c n siblings level value_dims)
termination_by (sizeOf n, 2, 0)

/-- The capability dispatch at the top of `node_info`: `children`,
then `main`, then `_deep_indexable`, then `unit_format`, then the
element fallback.  Returns `(lvl, lines, opts)`. -/
def node_info_dispatch (c : Config) (n : Node) (siblings : List (Option Node))
    (level : Int) (value_dims : Bool) :
    Int × List RenderLine × Option (List (String × String)) :=
  if n.hasChildren then
    (level, [(level, component_type (some n))], option_info c n)
  else if n.hasMain then
    let r := adjointlayout_info c n siblings level value_dims
    (r.1, r.2, none)
  else if n.deep_indexable then
    let r := ndmapping_info c n siblings level value_dims
    (r.1, r.2, none)
  else if n.hasUnitFormat then
    (level, [(level, n.reprStr)], none)
  else
    let r := element_info n siblings level value_dims
    (r.1, r.2, option_info c n)
termination_by (sizeOf n, 1, 0)

/-- Python `adjointlayout_info(node, siblings, level, value_dims)`: one
summary line, then every positional component rendered at the same
`level` (the loop is `adjoint_children`) and the combined result
shifted by one level. -/
def adjointlayout_info (c : Config) (n : Node) (_siblings : List (Option Node))
    (level : Int) (_value_dims : Bool) : Int × List RenderLine :=
  let first_line := component_type (some n)
  let additional_lines := adjoint_children c n.dataVals level
  (level, (level, first_line) :: shift additional_lines 1)
termination_by (sizeOf n, 0, 0)
decreasing_by
all_goals
  first
  | (have hlt := Node.sizeOf_dataVals_lt n; decreasing_tactic)
  | decreasing_tactic

/-- The `for component in list(node.data.values())` loop of
`adjointlayout_info`; note `recurse` is called with its Python default
`value_dims=True`. -/
def adjoint_children (c : Config) (comps : List Node) (level : Int) :
    List RenderLine :=
  match comps with
  | [] => []
  | comp :: rest =>
      recurse c comp none [] [] level true ++ adjoint_children c rest level
termination_by (sizeOf comps, 0, 0)

/-- Python `ndmapping_info(node, siblings, level, value_dims)`: type tag plus
bracketed key-dimension names, the option overlay, then — when the
mapping is nonempty — only its last entry, either through a nested
same-level `ndmapping_info` (deep-indexable non-Container entry) or
through `recurse`, shifted by one level.  (The `last is not None`
guard of the Python code is vacuous here: data values are nodes.) -/
def ndmapping_info (c : Config) (n : Node) (_siblings : List (Option Node))
    (level : Int) (value_dims : Bool) : Int × List RenderLine :=
  let key_dim_info := "[" ++ String.intercalate "," n.kdims ++ "]"
  let first_line := component_type (some n) ++ tab ++ key_dim_info
  let lines : List RenderLine := [(level, first_line)]
  let opts := option_info c n
  let lines :=
    match opts with
    | some kw =>
        if c.show_options && !kw.isEmpty then
          lines ++ (format_options c kw).map (fun l => (level, l))
        else lines
    | none => lines
  match hlast : n.dataVals.getLast? with
  | none => (level, lines)
  | some last =>
    if last.deep_indexable && !last.hasChildren then
      let r := ndmapping_info c last [] level value_dims
      (r.1, lines ++ shift r.2 1)
    else
      (level,
        lines ++ shift (recurse c last none [] [] level value_dims) 1)
termination_by (sizeOf n, 0, 0)
decreasing_by
all_goals
  first
  | (have hlt :=
      Node.sizeOf_lt_of_mem_dataVals (mem_of_getLast?_eq_some hlast)
     decreasing_tactic)
  | decreasing_tactic

end

/-- Python `pprint(node)`: serialize the recursion from the root (`attrpath`
`None`, level `0`, `value_dims=True`). -/
def pprint (c : Config) (node : Node) : String :=
  serialize (recurse c node none [] [] 0 true)

/-! ### Step lemmas: one unfolding of each recursive function -/

/-- The summary-plus-options prefix computed by `ndmapping_info`
before it examines the mapping's entries. -/
def ndmap_summary (c : Config) (n : Node) (level : Int) : List RenderLine :=
  let key_dim_info := "[" ++ String.intercalate "," n.kdims ++ "]"
  let first_line := component_type (some n) ++ tab ++ key_dim_info
  let lines : List RenderLine := [(level, first_line)]
  match option_info c n with
  | some kw =>
      if c.show_options && !kw.isEmpty then
        lines ++ (format_options c kw).map (fun l => (level, l))
      else lines
  | none => lines

theorem recurse_eq (c : Config) (n : Node) (ap : Option String)
    (aps : List String) (sib : List (Option Node)) (level : Int) (vd : Bool) :
    recurse c n ap aps sib level vd =
      (node_info c n ap aps sib level vd).2 ++
        recurse_children c n n.childrenKeys n.childrenKeys
          (n.childrenKeys.map n.get) (node_info c n ap aps sib level vd).1 vd := by
  rw [recurse]

theorem recurse_children_nil (c : Config) (n : Node) (aps : List String)
    (sib : List (Option Node)) (lvl : Int) (vd : Bool) :
    recurse_children c n [] aps sib lvl vd = [] := by
  rw [recurse_children]

theorem recurse_children_cons (c : Config) (n : Node) (k : String)
    (rest : List String) (aps : List String) (sib : List (Option Node))
    (lvl : Int) (vd : Bool) :
    recurse_children c n (k :: rest) aps sib lvl vd =
      (match n.get k with
       | some child => recurse c child (some k) aps sib (lvl + 1) vd
       | none => []) ++
      recurse_children c n rest aps sib lvl vd := by
  rw [recurse_children]
  cases hget : n.get k <;> simp [hget]

theorem node_info_eq (c : Config) (n : Node) (ap : Option String)
    (aps : List String) (sib : List (Option Node)) (level : Int) (vd : Bool) :
    node_info c n ap aps sib level vd =
      node_info_finish c ap aps level (node_info_dispatch c n sib level vd) := by
  rw [node_info]

theorem node_info_dispatch_eq (c : Config) (n : Node)
    (sib : List (Option Node)) (level : Int) (vd : Bool) :
    node_info_dispatch c n sib level vd =
      if n.hasChildren then
        (level, [(level, component_type (some n))], option_info c n)
      else if n.hasMain then
        ((adjointlayout_info c n sib level vd).1,
          (adjointlayout_info c n sib level vd).2, none)
      else if n.deep_indexable then
        ((ndmapping_info c n sib level vd).1,
          (ndmapping_info c n sib level vd).2, none)
      else if n.hasUnitFormat then
        (level, [(level, n.reprStr)], none)
      else
        ((element_info n sib level vd).1,
          (element_info n sib level vd).2, option_info c n) := by
  rw [node_info_dispatch]

theorem adjointlayout_info_eq (c : Config) (n : Node)
    (sib : List (Option Node)) (level : Int) (vd : Bool) :
    adjointlayout_info c n sib level vd =
      (level, (level, component_type (some n)) ::
        shift (adjoint_children c n.dataVals level) 1) := by
  rw [adjointlayout_info]

theorem adjoint_children_nil (c : Config) (level : Int) :
    adjoint_children c [] level = [] := by
  rw [adjoint_children]

theorem adjoint_children_cons (c : Config) (comp : Node) (rest : List Node)
    (level : Int) :
    adjoint_children c (comp :: rest) level =
      recurse c comp none [] [] level true ++ adjoint_children c rest level := by
  rw [adjoint_children]

theorem ndmapping_info_empty (c : Config) (n : Node)
    (sib : List (Option Node)) (level : Int) (vd : Bool)
    (h : n.dataVals.getLast? = none) :
    ndmapping_info c n sib level vd = (level, ndmap_summary c n level) := by
  rw [ndmapping_info]
  split
  · simp [ndmap_summary]
  · rename_i last hlast
    rw [h] at hlast
    cases hlast

theorem ndmapping_info_last_deep (c : Config) (n : Node)
    (sib : List (Option Node)) (level : Int) (vd : Bool) (last : Node)
    (h : n.dataVals.getLast? = some last)
    (hdeep : (last.deep_indexable && !last.hasChildren) = true) :
    ndmapping_info c n sib level vd =
      ((ndmapping_info c last [] level vd).1,
        ndmap_summary c n level ++
          shift (ndmapping_info c last [] level vd).2 1) := by
  rw [ndmapping_info]
  split
  · rename_i hlast
    rw [h] at hlast
    cases hlast
  · rename_i last2 hlast
    rw [h] at hlast
    injection hlast with hl
    subst hl
    simp only [hdeep, if_true, ndmap_summary]

theorem ndmapping_info_last_flat (c : Config) (n : Node)
    (sib : List (Option Node)) (level : Int) (vd : Bool) (last : Node)
    (h : n.dataVals.getLast? = some last)
    (hdeep : (last.deep_indexable && !last.hasChildren) = false) :
    ndmapping_info c n sib level vd =
      (level, ndmap_summary c n level ++
        shift (recurse c last none [] [] level vd) 1) := by
  rw [ndmapping_info]
  split
  · rename_i hlast
    rw [h] at hlast
    cases hlast
  · rename_i last2 hlast
    rw [h] at hlast
    injection hlast with hl
    subst hl
    simp only [hdeep, Bool.false_eq_true, if_false, ndmap_summary]

/-! ### Structural invariants of the rendered line sequence -/

/-- Every line of `L` sits at indentation level `ℓ` or deeper. -/
def levelsGE (ℓ : Int) (L : List RenderLine) : Prop := ∀ x ∈ L, ℓ ≤ x.1

/-- Consecutive lines never jump up by more than one level. -/
def steps1 (L : List RenderLine) : Prop :=
  List.Chain' (fun a b : RenderLine => b.1 ≤ a.1 + 1) L

/-- Shape of a node summary produced at level `ℓ`: nonempty, first
line exactly at `ℓ`, all lines at `ℓ` or deeper, steps bounded. -/
def summaryShape (ℓ : Int) (L : List RenderLine) : Prop :=
  (∃ t rest, L = (ℓ, t) :: rest) ∧ levelsGE ℓ L ∧ steps1 L

/-- Shape of a (possibly empty) child block at level `ℓ`: all lines at
`ℓ` or deeper, steps bounded, and the first line (if any) exactly at
`ℓ`. -/
def blockShape (ℓ : Int) (L : List RenderLine) : Prop :=
  levelsGE ℓ L ∧ steps1 L ∧ (∀ x ∈ L.head?, x.1 = ℓ)

theorem levelsGE_mono {ℓ ℓ' : Int} {L : List RenderLine} (h : ℓ' ≤ ℓ)
    (hL : levelsGE ℓ L) : levelsGE ℓ' L :=
  fun x hx => le_trans h (hL x hx)

theorem levelsGE_append {ℓ : Int} {A B : List RenderLine}
    (hA : levelsGE ℓ A) (hB : levelsGE ℓ B) : levelsGE ℓ (A ++ B) := by
  intro x hx
  rcases List.mem_append.mp hx with h | h
  · exact hA x h
  · exact hB x h

theorem levelsGE_shift {ℓ s : Int} {L : List RenderLine}
    (hL : levelsGE ℓ L) : levelsGE (ℓ + s) (shift L s) := by
  intro x hx
  simp only [shift, List.mem_map] at hx
  obtain ⟨p, hp, rfl⟩ := hx
  have := hL p hp
  simp only
  omega

theorem steps1_shift {s : Int} {L : List RenderLine}
    (hL : steps1 L) : steps1 (shift L s) := by
  unfold steps1 shift
  exact List.chain'_map_of_chain' (fun p : RenderLine => (p.1 + s, p.2))
    (fun a b hab => by dsimp only at *; omega) hL

theorem head?_shift {L : List RenderLine} {s : Int} :
    (shift L s).head? = L.head?.map (fun p => (p.1 + s, p.2)) := by
  cases L <;> simp [shift]

theorem steps1_const {ℓ : Int} {L : List RenderLine}
    (h : ∀ x ∈ L, x.1 = ℓ) : steps1 L := by
  induction L with
  | nil => exact List.chain'_nil
  | cons a l ih =>
    rw [steps1, List.chain'_cons']
    constructor
    · intro b hb
      have hbl : b ∈ l := List.mem_of_mem_head? hb
      have ha := h a (by simp)
      have hb2 := h b (List.mem_cons_of_mem a hbl)
      omega
    · exact ih (fun x hx => h x (List.mem_cons_of_mem a hx))

theorem steps1_append {ℓ : Int} {A B : List RenderLine}
    (hA : steps1 A) (hB : steps1 B) (hgeA : levelsGE ℓ A)
    (hheadB : ∀ y ∈ B.head?, y.1 ≤ ℓ + 1) : steps1 (A ++ B) := by
  rw [steps1, List.chain'_append]
  refine ⟨hA, hB, ?_⟩
  intro x hx y hy
  have hxA : x ∈ A := mem_of_getLast?_eq_some hx
  have h1 := hgeA x hxA
  have h2 := hheadB y hy
  omega

theorem summaryShape_append_block {ℓ ℓ' : Int} {A B : List RenderLine}
    (hA : summaryShape ℓ A) (hB : blockShape ℓ' B)
    (hle : ℓ ≤ ℓ') (hle1 : ℓ' ≤ ℓ + 1) : summaryShape ℓ (A ++ B) := by
  obtain ⟨⟨t, rest, hshape⟩, hge, hst⟩ := hA
  obtain ⟨hgeB, hstB, hheadB⟩ := hB
  refine ⟨⟨t, rest ++ B, by rw [hshape]; simp⟩, ?_, ?_⟩
  · exact levelsGE_append hge (levelsGE_mono hle hgeB)
  · exact steps1_append hst hstB hge
      (fun y hy => by have := hheadB y hy; omega)

theorem blockShape_of_const {ℓ : Int} {L : List RenderLine}
    (h : ∀ x ∈ L, x.1 = ℓ) : blockShape ℓ L :=
  ⟨fun x hx => (h x hx).ge, steps1_const h,
    fun x hx => h x (List.mem_of_mem_head? hx)⟩

theorem summaryShape_append_const {ℓ : Int} {A : List RenderLine}
    (hA : summaryShape ℓ A) (ls : List String) :
    summaryShape ℓ (A ++ ls.map (fun l => (ℓ, l))) := by
  refine summaryShape_append_block hA (blockShape_of_const ?_) le_rfl (by omega)
  intro x hx
  simp only [List.mem_map] at hx
  obtain ⟨a, _, rfl⟩ := hx
  rfl

theorem summaryShape_prepend_first {ℓ : Int} {L : List RenderLine} (pre : String)
    (h : summaryShape ℓ L) : summaryShape ℓ (prepend_first pre L) := by
  obtain ⟨⟨t, rest, rfl⟩, hge, hst⟩ := h
  refine ⟨⟨pre ++ t, rest, rfl⟩, ?_, ?_⟩
  · show levelsGE ℓ ((ℓ, pre ++ t) :: rest)
    intro x hx
    rcases List.mem_cons.mp hx with rfl | hx2
    · exact le_refl ℓ
    · exact hge x (List.mem_cons_of_mem _ hx2)
  · show steps1 ((ℓ, pre ++ t) :: rest)
    rw [steps1, List.chain'_cons'] at hst ⊢
    exact ⟨fun y hy => hst.1 y hy, hst.2⟩

theorem element_info_shape (n : Node) (sib : List (Option Node)) (ℓ : Int)
    (vd : Bool) :
    (element_info n sib ℓ vd).1 = ℓ ∧
      summaryShape ℓ (element_info n sib ℓ vd).2 := by
  refine ⟨rfl, ⟨_, [], rfl⟩, ?_, ?_⟩
  · intro x hx
    simp only [element_info, List.mem_singleton] at hx
    subst hx
    exact le_refl ℓ
  · exact List.chain'_singleton _

theorem node_info_finish_shape (c : Config) (ap : Option String)
    (aps : List String) (ℓ : Int)
    (r : Int × List RenderLine × Option (List (String × String)))
    (h1 : r.1 = ℓ) (h2 : summaryShape ℓ r.2.1) :
    (node_info_finish c ap aps ℓ r).1 = ℓ ∧
      summaryShape ℓ (node_info_finish c ap aps ℓ r).2 := by
  obtain ⟨lvl, lines, opts⟩ := r
  simp only at h1 h2
  subst h1
  obtain ⟨⟨t, rest, rfl⟩, hge, hst⟩ := h2
  have hsum : summaryShape lvl ((lvl, t) :: rest) := ⟨⟨t, rest, rfl⟩, hge, hst⟩
  refine ⟨rfl, ?_⟩
  cases ap with
  | none =>
    cases opts with
    | none => exact hsum
    | some kw =>
      by_cases hopt : (c.show_options && !kw.isEmpty) = true
      · simp only [node_info_finish, hopt, if_true]
        exact summaryShape_append_const hsum _
      · simp only [node_info_finish, hopt, if_false]
        exact hsum
  | some a =>
    have hpre := summaryShape_prepend_first
      ("." ++ ljust a ((padding aps).getD 0) ++ " ") hsum
    cases opts with
    | none => exact hpre
    | some kw =>
      by_cases hopt : (c.show_options && !kw.isEmpty) = true
      · simp only [node_info_finish, hopt, if_true]
        exact summaryShape_append_const hpre _
      · simp only [node_info_finish, hopt, if_false]
        exact hpre

theorem ndmap_summary_shape (c : Config) (n : Node) (ℓ : Int) :
    summaryShape ℓ (ndmap_summary c n ℓ) := by
  have hbase : summaryShape ℓ
      [(ℓ, component_type (some n) ++ tab ++
        ("[" ++ String.intercalate "," n.kdims ++ "]"))] :=
    ⟨⟨_, [], rfl⟩, fun x hx => by
        simp only [List.mem_singleton] at hx
        subst hx
        exact le_refl ℓ,
      List.chain'_singleton _⟩
  unfold ndmap_summary
  cases hoi : option_info c n with
  | none => exact hbase
  | some kw =>
    by_cases hopt : (c.show_options && !kw.isEmpty) = true
    · simp only [hopt, if_true]
      exact summaryShape_append_const hbase _
    · simp only [hopt, if_false]
      exact hbase

theorem blockShape_nil (ℓ : Int) : blockShape ℓ [] :=
  ⟨fun x hx => absurd hx (List.not_mem_nil x), List.chain'_nil,
    fun x hx => by simp at hx⟩

theorem summaryShape_singleton (ℓ : Int) (s : String) :
    summaryShape ℓ [(ℓ, s)] :=
  ⟨⟨s, [], rfl⟩,
    fun x hx => by
      simp only [List.mem_singleton] at hx
      subst hx
      exact le_refl ℓ,
    List.chain'_singleton _⟩

theorem summaryShape_toBlock {ℓ : Int} {L : List RenderLine}
    (h : summaryShape ℓ L) : blockShape ℓ L := by
  obtain ⟨⟨t, rest, rfl⟩, hge, hst⟩ := h
  refine ⟨hge, hst, ?_⟩
  intro x hx
  simp only [List.head?_cons, Option.mem_def, Option.some_inj] at hx
  subst hx
  rfl

theorem blockShape_append {ℓ : Int} {A B : List RenderLine}
    (hA : summaryShape ℓ A) (hB : blockShape ℓ B) : blockShape ℓ (A ++ B) := by
  obtain ⟨⟨t, rest, rfl⟩, hge, hst⟩ := hA
  refine ⟨levelsGE_append hge hB.1,
    steps1_append hst hB.2.1 hge
      (fun y hy => by have := hB.2.2 y hy; omega), ?_⟩
  intro x hx
  simp only [List.cons_append, List.head?_cons, Option.mem_def,
    Option.some_inj] at hx
  subst hx
  rfl

theorem blockShape_shift {ℓ s : Int} {L : List RenderLine}
    (h : blockShape ℓ L) : blockShape (ℓ + s) (shift L s) := by
  refine ⟨levelsGE_shift h.1, steps1_shift h.2.1, ?_⟩
  intro x hx
  rw [head?_shift] at hx
  simp only [Option.mem_def, Option.map_eq_some'] at hx
  obtain ⟨p, hp, rfl⟩ := hx
  have := h.2.2 p hp
  simp only
  omega

theorem summaryShape_cons_block {ℓ ℓ' : Int} {B : List RenderLine} (t : String)
    (hB : blockShape ℓ' B) (hle : ℓ ≤ ℓ') (hle1 : ℓ' ≤ ℓ + 1) :
    summaryShape ℓ ((ℓ, t) :: B) := by
  refine ⟨⟨t, B, rfl⟩, ?_, ?_⟩
  · intro x hx
    rcases List.mem_cons.mp hx with rfl | hx2
    · exact le_refl ℓ
    · exact le_trans hle (hB.1 x hx2)
  · rw [steps1, List.chain'_cons']
    refine ⟨fun y hy => ?_, hB.2.1⟩
    have := hB.2.2 y hy
    simp only
    omega

mutual

/-- Every `recurse` output is a well-shaped summary at its level:
nonempty, first line at `level`, all lines at `level` or deeper,
upward steps of at most one level. -/
theorem recurse_shape (c : Config) (n : Node) (ap : Option String)
    (aps : List String) (sib : List (Option Node)) (ℓ : Int) (vd : Bool) :
    summaryShape ℓ (recurse c n ap aps sib ℓ vd) := by
  rw [recurse_eq]
  have hni := node_info_shape c n ap aps sib ℓ vd
  have hch := recurse_children_shape c n n.childrenKeys n.childrenKeys
      (n.childrenKeys.map n.get) (node_info c n ap aps sib ℓ vd).1 vd
  rw [hni.1] at hch
  rw [hni.1]
  exact summaryShape_append_block hni.2 hch (by omega) (by omega)
termination_by (sizeOf n, 4, 0)

/-- The child loop emits a block whose lines all sit at `lvl + 1` or
deeper, starting (if nonempty) exactly at `lvl + 1`. -/
theorem recurse_children_shape (c : Config) (n : Node) (keys : List String)
    (aps : List String) (sib : List (Option Node)) (lvl : Int) (vd : Bool) :
    blockShape (lvl + 1) (recurse_children c n keys aps sib lvl vd) := by
  cases keys with
  | nil =>
    rw [recurse_children_nil]
    exact blockShape_nil _
  | cons k rest =>
    rw [recurse_children_cons]
    have h2 := recurse_children_shape c n rest aps sib lvl vd
    cases hget : n.get k with
    | none => simpa using h2
    | some child =>
      have h1 := recurse_shape c child (some k) aps sib (lvl + 1) vd
      simpa using blockShape_append h1 h2
termination_by (sizeOf n, 3, keys.length)
decreasing_by
all_goals
  first
  | (have hlt := Node.sizeOf_lt_of_get hget; decreasing_tactic)
  | decreasing_tactic

theorem node_info_shape (c : Config) (n : Node) (ap : Option String)
    (aps : List String) (sib : List (Option Node)) (ℓ : Int) (vd : Bool) :
    (node_info c n ap aps sib ℓ vd).1 = ℓ ∧
      summaryShape ℓ (node_info c n ap aps sib ℓ vd).2 := by
  rw [node_info_eq]
  have hd := node_info_dispatch_shape c n sib ℓ vd
  exact node_info_finish_shape c ap aps ℓ _ hd.1 hd.2
termination_by (sizeOf n, 2, 0)

theorem node_info_dispatch_shape (c : Config) (n : Node)
    (sib : List (Option Node)) (ℓ : Int) (vd : Bool) :
    (node_info_dispatch c n sib ℓ vd).1 = ℓ ∧
      summaryShape ℓ (node_info_dispatch c n sib ℓ vd).2.1 := by
  rw [node_info_dispatch_eq]
  cases hc : n.hasChildren with
  | true =>
    rw [if_pos rfl]
    exact ⟨rfl, summaryShape_singleton ℓ _⟩
  | false =>
    rw [if_neg (by simp)]
    cases hm : n.hasMain with
    | true =>
      rw [if_pos rfl]
      have h := adjointlayout_info_shape c n sib ℓ vd
      exact ⟨h.1, h.2⟩
    | false =>
      rw [if_neg (by simp)]
      cases hd : n.deep_indexable with
      | true =>
        rw [if_pos rfl]
        have h := ndmapping_info_shape c n sib ℓ vd
        exact ⟨h.1, h.2⟩
      | false =>
        rw [if_neg (by simp)]
        cases hu : n.hasUnitFormat with
        | true =>
          rw [if_pos rfl]
          exact ⟨rfl, summaryShape_singleton ℓ _⟩
        | false =>
          rw [if_neg (by simp)]
          have h := element_info_shape n sib ℓ vd
          exact ⟨h.1, h.2⟩
termination_by (sizeOf n, 1, 0)

theorem adjointlayout_info_shape (c : Config) (n : Node)
    (sib : List (Option Node)) (ℓ : Int) (vd : Bool) :
    (adjointlayout_info c n sib ℓ vd).1 = ℓ ∧
      summaryShape ℓ (adjointlayout_info c n sib ℓ vd).2 := by
  rw [adjointlayout_info_eq]
  refine ⟨rfl, ?_⟩
  have hch := adjoint_children_shape c n.dataVals ℓ
  have hsh : blockShape (ℓ + 1) (shift (adjoint_children c n.dataVals ℓ) 1) :=
    blockShape_shift hch
  exact summaryShape_cons_block _ hsh (by omega) (by omega)
termination_by (sizeOf n, 0, 0)
decreasing_by
all_goals
  first
  | (have hlt := Node.sizeOf_dataVals_lt n; decreasing_tactic)
  | decreasing_tactic

theorem adjoint_children_shape (c : Config) (comps : List Node) (ℓ : Int) :
    blockShape ℓ (adjoint_children c comps ℓ) := by
  cases comps with
  | nil =>
    rw [adjoint_children_nil]
    exact blockShape_nil _
  | cons comp rest =>
    rw [adjoint_children_cons]
    exact blockShape_append (recurse_shape c comp none [] [] ℓ true)
      (adjoint_children_shape c rest ℓ)
termination_by (sizeOf comps, 0, 0)

theorem ndmapping_info_shape (c : Config) (n : Node)
    (sib : List (Option Node)) (ℓ : Int) (vd : Bool) :
    (ndmapping_info c n sib ℓ vd).1 = ℓ ∧
      summaryShape ℓ (ndmapping_info c n sib ℓ vd).2 := by
  cases hlast : n.dataVals.getLast? with
  | none =>
    rw [ndmapping_info_empty c n sib ℓ vd hlast]
    exact ⟨rfl, ndmap_summary_shape c n ℓ⟩
  | some last =>
    cases hdeep : last.deep_indexable && !last.hasChildren with
    | true =>
      rw [ndmapping_info_last_deep c n sib ℓ vd last hlast hdeep]
      have hrec := ndmapping_info_shape c last [] ℓ vd
      refine ⟨hrec.1, ?_⟩
      exact summaryShape_append_block (ndmap_summary_shape c n ℓ)
        (blockShape_shift (summaryShape_toBlock hrec.2)) (by omega) (by omega)
    | false =>
      rw [ndmapping_info_last_flat c n sib ℓ vd last hlast hdeep]
      have hrec := recurse_shape c last none [] [] ℓ vd
      refine ⟨rfl, ?_⟩
      exact summaryShape_append_block (ndmap_summary_shape c n ℓ)
        (blockShape_shift (summaryShape_toBlock hrec)) (by omega) (by omega)
termination_by (sizeOf n, 0, 0)
decreasing_by
all_goals
  first
  | (have hlt :=
      Node.sizeOf_lt_of_mem_dataVals (mem_of_getLast?_eq_some hlast)
     decreasing_tactic)
  | decreasing_tactic

end

/-! ### With the option overlay disabled, the configuration record is
not consulted beyond `show_options` itself -/

theorem option_info_off {c : Config} (h : c.show_options = false) (n : Node) :
    option_info c n = none := by
  simp [option_info, h]

theorem node_info_finish_opts_none (c₁ c₂ : Config) (ap : Option String)
    (aps : List String) (ℓ : Int) (lvl : Int) (lines : List RenderLine) :
    node_info_finish c₁ ap aps ℓ (lvl, lines, none) =
      node_info_finish c₂ ap aps ℓ (lvl, lines, none) := rfl

theorem ndmap_summary_off {c₁ c₂ : Config} (h₁ : c₁.show_options = false)
    (h₂ : c₂.show_options = false) (n : Node) (ℓ : Int) :
    ndmap_summary c₁ n ℓ = ndmap_summary c₂ n ℓ := by
  simp [ndmap_summary, option_info_off h₁, option_info_off h₂]

mutual

theorem recurse_off (c₁ c₂ : Config) (h₁ : c₁.show_options = false)
    (h₂ : c₂.show_options = false) (n : Node) (ap : Option String)
    (aps : List String) (sib : List (Option Node)) (ℓ : Int) (vd : Bool) :
    recurse c₁ n ap aps sib ℓ vd = recurse c₂ n ap aps sib ℓ vd := by
  rw [recurse_eq, recurse_eq,
    node_info_off c₁ c₂ h₁ h₂ n ap aps sib ℓ vd,
    recurse_children_off c₁ c₂ h₁ h₂ n n.childrenKeys n.childrenKeys
      (n.childrenKeys.map n.get) (node_info c₂ n ap aps sib ℓ vd).1 vd]
termination_by (sizeOf n, 4, 0)

theorem recurse_children_off (c₁ c₂ : Config) (h₁ : c₁.show_options = false)
    (h₂ : c₂.show_options = false) (n : Node) (keys : List String)
    (aps : List String) (sib : List (Option Node)) (lvl : Int) (vd : Bool) :
    recurse_children c₁ n keys aps sib lvl vd =
      recurse_children c₂ n keys aps sib lvl vd := by
  cases keys with
  | nil => rw [recurse_children_nil, recurse_children_nil]
  | cons k rest =>
    rw [recurse_children_cons, recurse_children_cons,
      recurse_children_off c₁ c₂ h₁ h₂ n rest aps sib lvl vd]
    cases hget : n.get k with
    | none => rfl
    | some child =>
      show recurse c₁ child (some k) aps sib (lvl + 1) vd ++
          recurse_children c₂ n rest aps sib lvl vd =
        recurse c₂ child (some k) aps sib (lvl + 1) vd ++
          recurse_children c₂ n rest aps sib lvl vd
      rw [recurse_off c₁ c₂ h₁ h₂ child (some k) aps sib (lvl + 1) vd]
termination_by (sizeOf n, 3, keys.length)
decreasing_by
all_goals
  first
  | (have hlt := Node.sizeOf_lt_of_get hget; decreasing_tactic)
  | decreasing_tactic

theorem node_info_off (c₁ c₂ : Config) (h₁ : c₁.show_options = false)
    (h₂ : c₂.show_options = false) (n : Node) (ap : Option String)
    (aps : List String) (sib : List (Option Node)) (ℓ : Int) (vd : Bool) :
    node_info c₁ n ap aps sib ℓ vd = node_info c₂ n ap aps sib ℓ vd := by
  rw [node_info_eq, node_info_eq,
    node_info_dispatch_off c₁ c₂ h₁ h₂ n sib ℓ vd]
  obtain ⟨lvl, lines, opts⟩ := node_info_dispatch c₂ n sib ℓ vd
  cases opts with
  | none => exact node_info_finish_opts_none c₁ c₂ ap aps ℓ lvl lines
  | some kw =>
    simp only [node_info_finish, h₁, h₂, Bool.false_and, Bool.false_eq_true,
      if_false]
termination_by (sizeOf n, 2, 0)

theorem node_info_dispatch_off (c₁ c₂ : Config) (h₁ : c₁.show_options = false)
    (h₂ : c₂.show_options = false) (n : Node) (sib : List (Option Node))
    (ℓ : Int) (vd : Bool) :
    node_info_dispatch c₁ n sib ℓ vd = node_info_dispatch c₂ n sib ℓ vd := by
  rw [node_info_dispatch_eq, node_info_dispatch_eq]
  cases hc : n.hasChildren with
  | true =>
    rw [if_pos rfl, if_pos rfl, option_info_off h₁, option_info_off h₂]
  | false =>
    rw [if_neg (show ¬(false = true) by simp),
      if_neg (show ¬(false = true) by simp)]
    cases hm : n.hasMain with
    | true =>
      rw [if_pos rfl, if_pos rfl,
        adjointlayout_info_off c₁ c₂ h₁ h₂ n sib ℓ vd]
    | false =>
      rw [if_neg (show ¬(false = true) by simp),
        if_neg (show ¬(false = true) by simp)]
      cases hd : n.deep_indexable with
      | true =>
        rw [if_pos rfl, if_pos rfl,
          ndmapping_info_off c₁ c₂ h₁ h₂ n sib ℓ vd]
      | false =>
        rw [if_neg (show ¬(false = true) by simp),
          if_neg (show ¬(false = true) by simp)]
        cases hu : n.hasUnitFormat with
        | true => rw [if_pos rfl, if_pos rfl]
        | false =>
          rw [if_neg (show ¬(false = true) by simp),
            if_neg (show ¬(false = true) by simp),
            option_info_off h₁, option_info_off h₂]
termination_by (sizeOf n, 1, 0)

theorem adjointlayout_info_off (c₁ c₂ : Config) (h₁ : c₁.show_options = false)
    (h₂ : c₂.show_options = false) (n : Node) (sib : List (Option Node))
    (ℓ : Int) (vd : Bool) :
    adjointlayout_info c₁ n sib ℓ vd = adjointlayout_info c₂ n sib ℓ vd := by
  rw [adjointlayout_info_eq, adjointlayout_info_eq,
    adjoint_children_off c₁ c₂ h₁ h₂ n.dataVals ℓ]
termination_by (sizeOf n, 0, 0)
decreasing_by
all_goals
  first
  | (have hlt := Node.sizeOf_dataVals_lt n; decreasing_tactic)
  | decreasing_tactic

theorem adjoint_children_off (c₁ c₂ : Config) (h₁ : c₁.show_options = false)
    (h₂ : c₂.show_options = false) (comps : List Node) (ℓ : Int) :
    adjoint_children c₁ comps ℓ = adjoint_children c₂ comps ℓ := by
  cases comps with
  | nil => rw [adjoint_children_nil, adjoint_children_nil]
  | cons comp rest =>
    rw [adjoint_children_cons, adjoint_children_cons,
      recurse_off c₁ c₂ h₁ h₂ comp none [] [] ℓ true,
      adjoint_children_off c₁ c₂ h₁ h₂ rest ℓ]
termination_by (sizeOf comps, 0, 0)

theorem ndmapping_info_off (c₁ c₂ : Config) (h₁ : c₁.show_options = false)
    (h₂ : c₂.show_options = false) (n : Node) (sib : List (Option Node))
    (ℓ : Int) (vd : Bool) :
    ndmapping_info c₁ n sib ℓ vd = ndmapping_info c₂ n sib ℓ vd := by
  cases hlast : n.dataVals.getLast? with
  | none =>
    rw [ndmapping_info_empty c₁ n sib ℓ vd hlast,
      ndmapping_info_empty c₂ n sib ℓ vd hlast,
      ndmap_summary_off h₁ h₂ n ℓ]
  | some last =>
    cases hdeep : last.deep_indexable && !last.hasChildren with
    | true =>
      rw [ndmapping_info_last_deep c₁ n sib ℓ vd last hlast hdeep,
        ndmapping_info_last_deep c₂ n sib ℓ vd last hlast hdeep,
        ndmap_summary_off h₁ h₂ n ℓ,
        ndmapping_info_off c₁ c₂ h₁ h₂ last [] ℓ vd]
    | false =>
      rw [ndmapping_info_last_flat c₁ n sib ℓ vd last hlast hdeep,
        ndmapping_info_last_flat c₂ n sib ℓ vd last hlast hdeep,
        ndmap_summary_off h₁ h₂ n ℓ,
        recurse_off c₁ c₂ h₁ h₂ last none [] [] ℓ vd]
termination_by (sizeOf n, 0, 0)
decreasing_by
all_goals
  first
  | (have hlt :=
      Node.sizeOf_lt_of_mem_dataVals (mem_of_getLast?_eq_some hlast)
     decreasing_tactic)
  | decreasing_tactic

end

/-! ### Instrumentation: the `(attrpath, attrpaths)` argument pairs of
every `node_info` invocation in a render's call tree.  These mirror the
recursion structure of `recurse` / `node_info` / `adjointlayout_info` /
`ndmapping_info` exactly, recording one entry per `node_info` call
(`padding` is invoked exactly at the entries whose first component is
non-null). -/

mutual

def recurse_calls (n : Node) (ap : Option String) (aps : List String) :
    List (Option String × List String) :=
  (ap, aps) :: (node_info_calls n ++
    recurse_children_calls n n.childrenKeys n.childrenKeys)
termination_by (sizeOf n, 4, 0)

def recurse_children_calls (n : Node) (keys : List String)
    (aps : List String) : List (Option String × List String) :=
  match keys with
  | [] => []
  | k :: rest =>
    (match h : n.get k with
     | some child => recurse_calls child (some k) aps
     | none => []) ++ recurse_children_calls n rest aps
termination_by (sizeOf n, 3, keys.length)
decreasing_by
all_goals
  first
  | (have hlt := Node.sizeOf_lt_of_get h; decreasing_tactic)
  | decreasing_tactic

def node_info_calls (n : Node) : List (Option String × List String) :=
  if n.hasChildren then []
  else if n.hasMain then adjoint_children_calls n.dataVals
  else if n.deep_indexable then ndmapping_calls n
  else []
termination_by (sizeOf n, 1, 0)
decreasing_by
all_goals
  first
  | (have hlt := Node.sizeOf_dataVals_lt n; decreasing_tactic)
  | decreasing_tactic

def adjoint_children_calls (comps : List Node) :
    List (Option String × List String) :=
  match comps with
  | [] => []
  | comp :: rest => recurse_calls comp none [] ++ adjoint_children_calls rest
termination_by (sizeOf comps, 0, 0)

def ndmapping_calls (n : Node) : List (Option String × List String) :=
  match hlast : n.dataVals.getLast? with
  | none => []
  | some last =>
    if last.deep_indexable && !last.hasChildren then ndmapping_calls last
    else recurse_calls last none []
termination_by (sizeOf n, 0, 0)
decreasing_by
all_goals
  first
  | (have hlt :=
      Node.sizeOf_lt_of_mem_dataVals (mem_of_getLast?_eq_some hlast)
     decreasing_tactic)
  | decreasing_tactic

end

theorem recurse_children_calls_nil (n : Node) (aps : List String) :
    recurse_children_calls n [] aps = [] := by
  rw [recurse_children_calls]

theorem recurse_children_calls_cons (n : Node) (k : String)
    (rest : List String) (aps : List String) :
    recurse_children_calls n (k :: rest) aps =
      (match n.get k with
       | some child => recurse_calls child (some k) aps
       | none => []) ++ recurse_children_calls n rest aps := by
  rw [recurse_children_calls]
  cases hget : n.get k <;> simp [hget]

theorem ndmapping_calls_empty (n : Node) (h : n.dataVals.getLast? = none) :
    ndmapping_calls n = [] := by
  rw [ndmapping_calls]
  split
  · rfl
  · rename_i last hlast
    rw [h] at hlast
    cases hlast

theorem ndmapping_calls_last (n : Node) (last : Node)
    (h : n.dataVals.getLast? = some last) :
    ndmapping_calls n =
      if last.deep_indexable && !last.hasChildren then ndmapping_calls last
      else recurse_calls last none [] := by
  rw [ndmapping_calls]
  split
  · rename_i hlast
    rw [h] at hlast
    cases hlast
  · rename_i last2 hlast
    rw [h] at hlast
    injection hlast with hl
    subst hl
    rfl

mutual

theorem recurse_calls_sound (n : Node) (ap : Option String)
    (aps : List String) (h : ∀ a, ap = some a → a ∈ aps) :
    ∀ e ∈ recurse_calls n ap aps, ∀ a, e.1 = some a → a ∈ e.2 := by
  intro e he a hea
  rw [recurse_calls] at he
  rcases List.mem_cons.mp he with rfl | he2
  · exact h a hea
  rcases List.mem_append.mp he2 with he3 | he3
  · exact node_info_calls_sound n e he3 a hea
  · exact recurse_children_calls_sound n n.childrenKeys n.childrenKeys
      (fun k hk => hk) e he3 a hea
termination_by (sizeOf n, 4, 0)

theorem recurse_children_calls_sound (n : Node) (keys : List String)
    (aps : List String) (hsub : ∀ k ∈ keys, k ∈ aps) :
    ∀ e ∈ recurse_children_calls n keys aps, ∀ a, e.1 = some a → a ∈ e.2 := by
  intro e he a hea
  cases keys with
  | nil =>
    rw [recurse_children_calls_nil] at he
    exact absurd he (List.not_mem_nil e)
  | cons k rest =>
    rw [recurse_children_calls_cons] at he
    rcases List.mem_append.mp he with he2 | he2
    · cases hget : n.get k with
      | none =>
        rw [hget] at he2
        exact absurd he2 (List.not_mem_nil e)
      | some child =>
        rw [hget] at he2
        exact recurse_calls_sound child (some k) aps
          (fun a2 ha2 => by
            injection ha2 with ha3
            subst ha3
            exact hsub k (List.mem_cons_self k rest)) e he2 a hea
    · exact recurse_children_calls_sound n rest aps
        (fun k2 hk2 => hsub k2 (List.mem_cons_of_mem k hk2)) e he2 a hea
termination_by (sizeOf n, 3, keys.length)
decreasing_by
all_goals
  first
  | (have hlt := Node.sizeOf_lt_of_get hget; decreasing_tactic)
  | decreasing_tactic

theorem node_info_calls_sound (n : Node) :
    ∀ e ∈ node_info_calls n, ∀ a, e.1 = some a → a ∈ e.2 := by
  intro e he a hea
  rw [node_info_calls] at he
  by_cases hc : n.hasChildren = true
  · rw [if_pos hc] at he
    exact absurd he (List.not_mem_nil e)
  · rw [if_neg hc] at he
    by_cases hm : n.hasMain = true
    · rw [if_pos hm] at he
      exact adjoint_children_calls_sound n.dataVals e he a hea
    · rw [if_neg hm] at he
      by_cases hd : n.deep_indexable = true
      · rw [if_pos hd] at he
        exact ndmapping_calls_sound n e he a hea
      · rw [if_neg hd] at he
        exact absurd he (List.not_mem_nil e)
termination_by (sizeOf n, 1, 0)
decreasing_by
all_goals
  first
  | (have hlt := Node.sizeOf_dataVals_lt n; decreasing_tactic)
  | decreasing_tactic

theorem adjoint_children_calls_sound (comps : List Node) :
    ∀ e ∈ adjoint_children_calls comps, ∀ a, e.1 = some a → a ∈ e.2 := by
  intro e he a hea
  cases comps with
  | nil =>
    rw [adjoint_children_calls] at he
    exact absurd he (List.not_mem_nil e)
  | cons comp rest =>
    rw [adjoint_children_calls] at he
    rcases List.mem_append.mp he with he2 | he2
    · exact recurse_calls_sound comp none []
        (fun a2 ha2 => by cases ha2) e he2 a hea
    · exact adjoint_children_calls_sound rest e he2 a hea
termination_by (sizeOf comps, 0, 0)

theorem ndmapping_calls_sound (n : Node) :
    ∀ e ∈ ndmapping_calls n, ∀ a, e.1 = some a → a ∈ e.2 := by
  intro e he a hea
  cases hlast : n.dataVals.getLast? with
  | none =>
    rw [ndmapping_calls_empty n hlast] at he
    exact absurd he (List.not_mem_nil e)
  | some last =>
    rw [ndmapping_calls_last n last hlast] at he
    by_cases hdeep : (last.deep_indexable && !last.hasChildren) = true
    · rw [if_pos hdeep] at he
      exact ndmapping_calls_sound last e he a hea
    · rw [if_neg hdeep] at he
      exact recurse_calls_sound last none []
        (fun a2 ha2 => by cases ha2) e he a hea
termination_by (sizeOf n, 0, 0)
decreasing_by
all_goals
  first
  | (have hlt :=
      Node.sizeOf_lt_of_mem_dataVals (mem_of_getLast?_eq_some hlast)
     decreasing_tactic)
  | decreasing_tactic

end

theorem padding_isSome {items : List String} (h : items ≠ []) :
    ∃ m, padding items = some m := by
  unfold padding
  by_cases hlen : 1 < items.length
  · exact ⟨_, by rw [if_pos hlen]⟩
  · rw [if_neg hlen]
    cases items with
    | nil => exact absurd rfl h
    | cons a rest => exact ⟨a.length, rfl⟩

/-! ### Helper facts for the claims -/

theorem le_foldl_max (l : List Nat) (a : Nat) : a ≤ l.foldl Nat.max a := by
  induction l generalizing a with
  | nil => exact le_refl a
  | cons x xs ih =>
    show a ≤ xs.foldl Nat.max (Nat.max a x)
    calc a ≤ Nat.max a x := Nat.le_max_left a x
    _ ≤ xs.foldl Nat.max (Nat.max a x) := ih _

theorem mem_le_foldl_max {x : Nat} (l : List Nat) (a : Nat) (hx : x ∈ l) :
    x ≤ l.foldl Nat.max a := by
  induction l generalizing a with
  | nil => cases hx
  | cons y ys ih =>
    rcases List.mem_cons.mp hx with rfl | h2
    · show x ≤ ys.foldl Nat.max (Nat.max a x)
      calc x ≤ Nat.max a x := Nat.le_max_right a x
      _ ≤ ys.foldl Nat.max (Nat.max a x) := le_foldl_max ys _
    · exact ih (Nat.max a y) h2

theorem foldl_max_mem (l : List Nat) (a : Nat) :
    l.foldl Nat.max a = a ∨ l.foldl Nat.max a ∈ l := by
  induction l generalizing a with
  | nil => exact Or.inl rfl
  | cons y ys ih =>
    have hstep : (y :: ys).foldl Nat.max a = ys.foldl Nat.max (Nat.max a y) :=
      rfl
    rcases ih (Nat.max a y) with h | h
    · have hmax : Nat.max a y = a ∨ Nat.max a y = y := by
        rcases Nat.le_total a y with hle | hle
        · exact Or.inr (Nat.max_eq_right hle)
        · exact Or.inl (Nat.max_eq_left hle)
      rcases hmax with h2 | h2
      · exact Or.inl (by rw [hstep, h, h2])
      · refine Or.inr ?_
        rw [hstep, h, h2]
        exact List.mem_cons_self y ys
    · refine Or.inr ?_
      rw [hstep]
      exact List.mem_cons_of_mem y h

theorem padding_eq_max {items : List String} (h : items ≠ []) :
    ∃ m, padding items = some m ∧ (∀ s ∈ items, s.length ≤ m) ∧
      ∃ s ∈ items, s.length = m := by
  by_cases hlen : 1 < items.length
  · refine ⟨(items.map String.length).foldl Nat.max 0, ?_, ?_, ?_⟩
    · rw [padding, if_pos hlen]
    · intro s hs
      exact mem_le_foldl_max _ 0 (List.mem_map_of_mem _ hs)
    · rcases foldl_max_mem (items.map String.length) 0 with h0 | hmem
      · obtain ⟨s0, rest, rfl⟩ := List.exists_cons_of_ne_nil h
        refine ⟨s0, List.mem_cons_self s0 rest, ?_⟩
        have hle : s0.length ≤ ((s0 :: rest).map String.length).foldl Nat.max 0 :=
          mem_le_foldl_max _ 0 (by simp)
        omega
      · obtain ⟨s, hs, hlen_eq⟩ := List.mem_map.mp hmem
        exact ⟨s, hs, hlen_eq⟩
  · obtain ⟨s0, rest, rfl⟩ := List.exists_cons_of_ne_nil h
    have hr : rest = [] := by
      cases rest with
      | nil => rfl
      | cons b bs =>
        exfalso
        apply hlen
        simp
    subst hr
    refine ⟨s0.length, by simp [padding], ?_, ⟨s0, by simp, rfl⟩⟩
    intro s hs
    simp only [List.mem_singleton] at hs
    subst hs
    exact le_refl _

theorem adjoint_children_join (c : Config) (comps : List Node) (ℓ : Int) :
    adjoint_children c comps ℓ =
      (comps.map (fun comp => recurse c comp none [] [] ℓ true)).join := by
  induction comps with
  | nil =>
    rw [adjoint_children_nil]
    rfl
  | cons comp rest ih =>
    rw [adjoint_children_cons, ih]
    simp

theorem intercalate_go_append (s : String) (l : List String)
    (a₁ a₂ : String) :
    String.intercalate.go (a₁ ++ a₂) s l =
      a₁ ++ String.intercalate.go a₂ s l := by
  induction l generalizing a₂ with
  | nil => rfl
  | cons b bs ih =>
    show String.intercalate.go (a₁ ++ a₂ ++ s ++ b) s bs =
      a₁ ++ String.intercalate.go (a₂ ++ s ++ b) s bs
    rw [String.append_assoc, String.append_assoc,
      ← String.append_assoc a₂ s b]
    exact ih (a₂ ++ s ++ b)

theorem prepend_first_cons_append (pre : String) (l : Int) (t : String)
    (rest Y : List RenderLine) :
    prepend_first pre (((l, t) :: rest) ++ Y) =
      prepend_first pre ((l, t) :: rest) ++ Y := rfl

/-- Replace only the option-store field of a configuration. -/
def Config.withStore (c : Config)
    (s : Bool → Node → String → Option (List (String × String))) : Config :=
  { c with lookup_options := s }

/-- The four rendering strategies of the Node Classifier. -/
inductive Variant : Type where
  | containerV
  | compositeV
  | ndmappingV
  | leafV
deriving Repr, DecidableEq

/-- The classification function prescribed by the spec: test the
capabilities in priority order Container, Composite, deep-indexable
IndexedMapping, Leaf-like fallback. -/
def classify (n : Node) : Variant :=
  if n.hasChildren then .containerV
  else if n.hasMain then .compositeV
  else if n.deep_indexable then .ndmappingV
  else .leafV

/-- A minimal configuration with the option overlay disabled. -/
def cfg_off : Config :=
  ⟨false, false, [], fun _ _ _ => none, fun _ => "", fun s => [s]⟩

/-- Helper for C4: with a non-null attribute path, `node_info` differs
from the null-path rendering exactly by the label prefix on the first
line. -/
theorem node_info_some_eq_prepend (c : Config) (n : Node) (ap : String)
    (aps : List String) (sib : List (Option Node)) (ℓ : Int) (vd : Bool) :
    (node_info c n (some ap) aps sib ℓ vd).2 =
      prepend_first ("." ++ ljust ap ((padding aps).getD 0) ++ " ")
        (node_info c n none aps sib ℓ vd).2 := by
  rw [node_info_eq, node_info_eq]
  have hshape := node_info_dispatch_shape c n sib ℓ vd
  rcases hdis : node_info_dispatch c n sib ℓ vd with ⟨lvl, lines, opts⟩
  rw [hdis] at hshape
  obtain ⟨hlvl, ⟨t, rest, hlines⟩, hge, hst⟩ := hshape
  simp only at hlvl hlines
  subst hlvl
  subst hlines
  cases opts with
  | none => rfl
  | some kw =>
    simp only [node_info_finish]
    by_cases hopt : (c.show_options && !kw.isEmpty) = true
    · rw [if_pos hopt, if_pos hopt]
      rfl
    · rw [if_neg hopt, if_neg hopt]

/-- A sample element used by concrete instances. -/
def curveE : Node := Node.element "Curve" ["x"] ["y"]

/-- A configuration with the option overlay enabled whose store
discriminates between nodes by entry count — legitimate for a store the
code keys by the node itself. -/
def cfg_disc : Config where
  show_options := true
  show_defaults := false
  option_groups := ["style"]
  lookup_options := fun _ n _ =>
    match n with
    | Node.ndmapping _ _ d => if 2 < d.length then some [("color", "red")] else none
    | _ => none
  options_repr := fun _ => "opts"
  wrap := fun s => [s]

/-- For a root-style call on an IndexedMapping node, `recurse` is just
the `ndmapping_info` line block (no keyed children, null path). -/
theorem recurse_ndmapping_eq (c : Config) (t : String) (kd : List String)
    (d : List Node) (ℓ : Int) (vd : Bool) :
    recurse c (Node.ndmapping t kd d) none [] [] ℓ vd =
      (ndmapping_info c (Node.ndmapping t kd d) [] ℓ vd).2 := by
  rw [recurse_eq, node_info_eq]
  have hdis : node_info_dispatch c (Node.ndmapping t kd d) [] ℓ vd =
      ((ndmapping_info c (Node.ndmapping t kd d) [] ℓ vd).1,
        (ndmapping_info c (Node.ndmapping t kd d) [] ℓ vd).2, none) := by
    rw [node_info_dispatch_eq]
    simp [Node.hasChildren, Node.hasMain, Node.deep_indexable]
  rw [hdis]
  simp [node_info_finish, Node.childrenKeys, recurse_children_nil]

/-- Counterexample to C1 as stated: with the overlay enabled and a
store that (as the code permits — it receives the node itself)
distinguishes the mappings, two mappings with more than one entry
sharing type tag, key dimensions and last entry render differently, so
the output is not independent of the other entries. -/
theorem claim_c1_counterexample :
    recurse cfg_disc (Node.ndmapping "HoloMap" ["x"] ([curveE] ++ [curveE]))
        none [] [] 0 true ≠
      recurse cfg_disc
        (Node.ndmapping "HoloMap" ["x"] ([curveE, curveE] ++ [curveE]))
        none [] [] 0 true := by
  intro h
  rw [recurse_ndmapping_eq cfg_disc "HoloMap" ["x"] ([curveE] ++ [curveE]) 0 true,
    recurse_ndmapping_eq cfg_disc "HoloMap" ["x"]
      ([curveE, curveE] ++ [curveE]) 0 true,
    ndmapping_info_last_flat cfg_disc
      (Node.ndmapping "HoloMap" ["x"] ([curveE] ++ [curveE])) [] 0 true curveE
      rfl rfl,
    ndmapping_info_last_flat cfg_disc
      (Node.ndmapping "HoloMap" ["x"] ([curveE, curveE] ++ [curveE])) [] 0 true
      curveE rfl rfl] at h
  have hlen := congrArg List.length h
  simp only [List.length_append] at hlen
  have h2 : (ndmap_summary cfg_disc
      (Node.ndmapping "HoloMap" ["x"] ([curveE] ++ [curveE])) 0).length = 1 := rfl
  have h3 : (ndmap_summary cfg_disc
      (Node.ndmapping "HoloMap" ["x"]
        ([curveE, curveE] ++ [curveE])) 0).length = 2 := rfl
  rw [h2, h3] at hlen
  omega

/-- Claim C1 (amended): for an IndexedMapping, only the last entry is
expanded, and — provided the option overlay is disabled or the option
store returns the same annotations for the two mappings — the rendered
output depends only on the type tag, key dimensions and last entry:
the other entries contribute no lines, both through `ndmapping_info`
and through the full tree walker `recurse`. -/
theorem claim_c1 (c : Config) (t : String) (kd : List String)
    (d₁ d₂ : List Node) (last : Node) (ap : Option String)
    (aps : List String) (sib : List (Option Node)) (ℓ : Int) (vd : Bool)
    (h : c.show_options = false ∨
      ∀ g, c.lookup_options c.show_defaults
          (Node.ndmapping t kd (d₁ ++ [last])) g =
        c.lookup_options c.show_defaults
          (Node.ndmapping t kd (d₂ ++ [last])) g) :
    recurse c (Node.ndmapping t kd (d₁ ++ [last])) ap aps sib ℓ vd =
      recurse c (Node.ndmapping t kd (d₂ ++ [last])) ap aps sib ℓ vd ∧
    ndmapping_info c (Node.ndmapping t kd (d₁ ++ [last])) sib ℓ vd =
      ndmapping_info c (Node.ndmapping t kd (d₂ ++ [last])) sib ℓ vd := by
  have hoi : option_info c (Node.ndmapping t kd (d₁ ++ [last])) =
      option_info c (Node.ndmapping t kd (d₂ ++ [last])) := by
    rcases h with hoff | hagree
    · rw [option_info_off hoff, option_info_off hoff]
    · unfold option_info
      have hfun : (fun (acc : List (String × String)) g =>
          match c.lookup_options c.show_defaults
              (Node.ndmapping t kd (d₁ ++ [last])) g with
          | some gopts => dictUpdate acc gopts
          | none => acc) =
          (fun (acc : List (String × String)) g =>
          match c.lookup_options c.show_defaults
              (Node.ndmapping t kd (d₂ ++ [last])) g with
          | some gopts => dictUpdate acc gopts
          | none => acc) := by
        funext acc g
        rw [hagree g]
      rw [hfun]
  have hsum : ndmap_summary c (Node.ndmapping t kd (d₁ ++ [last])) ℓ =
      ndmap_summary c (Node.ndmapping t kd (d₂ ++ [last])) ℓ := by
    unfold ndmap_summary
    rw [hoi]
    rfl
  have h₁ : (Node.ndmapping t kd (d₁ ++ [last])).dataVals.getLast? =
      some last := List.getLast?_concat d₁
  have h₂ : (Node.ndmapping t kd (d₂ ++ [last])).dataVals.getLast? =
      some last := List.getLast?_concat d₂
  have hnd : ndmapping_info c (Node.ndmapping t kd (d₁ ++ [last])) sib ℓ vd =
      ndmapping_info c (Node.ndmapping t kd (d₂ ++ [last])) sib ℓ vd := by
    cases hdeep : last.deep_indexable && !last.hasChildren with
    | true =>
      rw [ndmapping_info_last_deep c _ sib ℓ vd last h₁ hdeep,
        ndmapping_info_last_deep c _ sib ℓ vd last h₂ hdeep, hsum]
    | false =>
      rw [ndmapping_info_last_flat c _ sib ℓ vd last h₁ hdeep,
        ndmapping_info_last_flat c _ sib ℓ vd last h₂ hdeep, hsum]
  refine ⟨?_, hnd⟩
  rw [recurse_eq, recurse_eq, node_info_eq, node_info_eq]
  have hdis : node_info_dispatch c (Node.ndmapping t kd (d₁ ++ [last])) sib ℓ vd =
      node_info_dispatch c (Node.ndmapping t kd (d₂ ++ [last])) sib ℓ vd := by
    rw [node_info_dispatch_eq, node_info_dispatch_eq]
    simp [Node.hasChildren, Node.hasMain, Node.deep_indexable, hnd]
  rw [hdis]
  simp [Node.childrenKeys, recurse_children_nil]

/-- Witness for the amended C1: overlay disabled, one extra entry
before the shared last entry, identical output. -/
theorem claim_c1_witness :
    (cfg_off.show_options = false ∨
      ∀ g, cfg_off.lookup_options cfg_off.show_defaults
          (Node.ndmapping "HoloMap" ["x"] ([] ++ [curveE])) g =
        cfg_off.lookup_options cfg_off.show_defaults
          (Node.ndmapping "HoloMap" ["x"] ([curveE] ++ [curveE])) g) ∧
    (recurse cfg_off (Node.ndmapping "HoloMap" ["x"] ([] ++ [curveE]))
        none [] [] 0 true =
      recurse cfg_off (Node.ndmapping "HoloMap" ["x"] ([curveE] ++ [curveE]))
        none [] [] 0 true ∧
    ndmapping_info cfg_off (Node.ndmapping "HoloMap" ["x"] ([] ++ [curveE]))
        [] 0 true =
      ndmapping_info cfg_off
        (Node.ndmapping "HoloMap" ["x"] ([curveE] ++ [curveE])) [] 0 true) :=
  ⟨Or.inl rfl,
    claim_c1 cfg_off "HoloMap" ["x"] [] [curveE] curveE none [] [] 0 true
      (Or.inl rfl)⟩

/-- Claim C2: `adjointlayout_info` renders each positional child at
the composite's own level, shifts the combined child output by exactly
one level, and therefore every child-contributed line sits at a level
at least one deeper than (in particular, different from) the
composite's summary line. -/
theorem claim_c2 (c : Config) (t : String) (di : Bool) (kd : List String)
    (comps : List Node) (sib : List (Option Node)) (ℓ : Int) (vd : Bool) :
    adjointlayout_info c (Node.composite t di kd comps) sib ℓ vd =
      (ℓ, (ℓ, component_type (some (Node.composite t di kd comps))) ::
        shift ((comps.map (fun comp =>
          recurse c comp none [] [] ℓ true)).join) 1) ∧
    ∀ x ∈ shift ((comps.map (fun comp =>
        recurse c comp none [] [] ℓ true)).join) 1,
      ℓ + 1 ≤ x.1 ∧ x.1 ≠ ℓ := by
  constructor
  · rw [adjointlayout_info_eq]
    simp only [Node.dataVals]
    rw [adjoint_children_join]
  · intro x hx
    have hch := adjoint_children_shape c comps ℓ
    rw [adjoint_children_join] at hch
    have hsh := blockShape_shift (s := 1) hch
    have h1 := hsh.1 x hx
    exact ⟨h1, by omega⟩

/-- Claim C3: starting at level 0, every rendered line has a
non-negative level, and no line's level exceeds its predecessor's by
more than one. -/
theorem claim_c3 (c : Config) (n : Node) (vd : Bool) :
    (∀ x ∈ recurse c n none [] [] 0 vd, 0 ≤ x.1) ∧
    List.Chain' (fun a b : RenderLine => b.1 ≤ a.1 + 1)
      (recurse c n none [] [] 0 vd) :=
  ⟨(recurse_shape c n none [] [] 0 vd).2.1,
    (recurse_shape c n none [] [] 0 vd).2.2⟩

/-- Claim C4: when a node is rendered with a non-null path segment,
exactly the first summary line is rewritten by prepending
`'.' + segment.ljust(padding) + ' '` where `padding` is the maximum
length over the sibling segment set (the single segment's length when
there is only one); all other lines keep their own level and text. -/
theorem claim_c4 (c : Config) (n : Node) (ap : String) (aps : List String)
    (sib : List (Option Node)) (ℓ : Int) (vd : Bool) (h : aps ≠ []) :
    ∃ m, padding aps = some m ∧
      (node_info c n (some ap) aps sib ℓ vd).2 =
        prepend_first ("." ++ ljust ap m ++ " ")
          (node_info c n none aps sib ℓ vd).2 ∧
      (∀ s ∈ aps, s.length ≤ m) ∧ (∃ s ∈ aps, s.length = m) := by
  obtain ⟨m, hm, hub, hmem⟩ := padding_eq_max h
  refine ⟨m, hm, ?_, hub, hmem⟩
  rw [node_info_some_eq_prepend c n ap aps sib ℓ vd, hm]
  rfl

/-- Witness for C4 at a concrete sibling set. -/
theorem claim_c4_witness :
    (["a", "bb"] : List String) ≠ [] ∧
    ∃ m, padding ["a", "bb"] = some m ∧
      (node_info cfg_off (Node.element "Curve" ["x"] ["y"]) (some "a")
          ["a", "bb"] [] 0 true).2 =
        prepend_first ("." ++ ljust "a" m ++ " ")
          (node_info cfg_off (Node.element "Curve" ["x"] ["y"]) none
            ["a", "bb"] [] 0 true).2 ∧
      (∀ s ∈ (["a", "bb"] : List String), s.length ≤ m) ∧
      (∃ s ∈ (["a", "bb"] : List String), s.length = m) :=
  ⟨by decide,
    claim_c4 cfg_off (Node.element "Curve" ["x"] ["y"]) "a" ["a", "bb"] [] 0
      true (by decide)⟩

/-- Claim C5: `serialize` joins the lines with single newlines, each
line being the indent unit repeated `level` times followed by the
text, and the indent unit is exactly three spaces; it is a total
function. -/
theorem claim_c5 :
    serialize [] = "" ∧
    (∀ p : RenderLine, serialize [p] = strTimes p.1 tab ++ p.2) ∧
    (∀ (p q : RenderLine) (rest : List RenderLine),
      serialize (p :: q :: rest) =
        (strTimes p.1 tab ++ p.2) ++ "\n" ++ serialize (q :: rest)) ∧
    tab = String.mk [' ', ' ', ' '] := by
  refine ⟨rfl, fun p => rfl, ?_, rfl⟩
  intro p q rest
  exact intercalate_go_append "\n"
    (rest.map (fun x => strTimes x.1 tab ++ x.2))
    (strTimes p.1 tab ++ p.2 ++ "\n") (strTimes q.1 tab ++ q.2)

/-- Claim C6: with the option overlay disabled, the rendered output is
byte-identical no matter what the option store returns. -/
theorem claim_c6 (c : Config)
    (s₁ s₂ : Bool → Node → String → Option (List (String × String)))
    (n : Node) (h : c.show_options = false) :
    pprint (c.withStore s₁) n = pprint (c.withStore s₂) n := by
  unfold pprint
  rw [recurse_off (c.withStore s₁) (c.withStore s₂) h h n none [] [] 0 true]

/-- Witness for C6: two stores, one empty and one nonempty, same
output on a concrete node. -/
theorem claim_c6_witness :
    cfg_off.show_options = false ∧
    pprint (cfg_off.withStore (fun _ _ _ => none))
        (Node.element "Curve" ["x"] ["y"]) =
      pprint (cfg_off.withStore (fun _ _ g => some [(g, "v")]))
        (Node.element "Curve" ["x"] ["y"]) :=
  ⟨rfl, claim_c6 cfg_off _ _ _ rfl⟩

/-- Claim C7: the classifier assigns exactly one of the four variants,
testing capabilities in the priority order Container, Composite,
deep-indexable IndexedMapping, Leaf-like fallback (with the
scalar/unit sub-case rendered via the `repr` fallback), and
`node_info`'s dispatch follows that classification; there is no error
case. -/
theorem claim_c7 (c : Config) (n : Node) (sib : List (Option Node)) (ℓ : Int)
    (vd : Bool) :
    (classify n = Variant.containerV ↔ n.hasChildren = true) ∧
    (classify n = Variant.compositeV ↔
      n.hasChildren = false ∧ n.hasMain = true) ∧
    (classify n = Variant.ndmappingV ↔
      n.hasChildren = false ∧ n.hasMain = false ∧ n.deep_indexable = true) ∧
    (classify n = Variant.leafV ↔
      n.hasChildren = false ∧ n.hasMain = false ∧ n.deep_indexable = false) ∧
    node_info_dispatch c n sib ℓ vd =
      (match classify n with
       | Variant.containerV =>
           (ℓ, [(ℓ, component_type (some n))], option_info c n)
       | Variant.compositeV =>
           ((adjointlayout_info c n sib ℓ vd).1,
             (adjointlayout_info c n sib ℓ vd).2, none)
       | Variant.ndmappingV =>
           ((ndmapping_info c n sib ℓ vd).1,
             (ndmapping_info c n sib ℓ vd).2, none)
       | Variant.leafV =>
           if n.hasUnitFormat then (ℓ, [(ℓ, n.reprStr)], none)
           else ((element_info n sib ℓ vd).1,
             (element_info n sib ℓ vd).2, option_info c n)) := by
  rw [node_info_dispatch_eq]
  cases hc : n.hasChildren with
  | true => simp [classify, hc]
  | false =>
    cases hm : n.hasMain with
    | true => simp [classify, hc, hm]
    | false =>
      cases hd : n.deep_indexable with
      | true => simp [classify, hc, hm, hd]
      | false => simp [classify, hc, hm, hd]

/-- Claim C8: for a nonempty IndexedMapping, the walker recurses into
the last entry via the same-level `ndmapping_info` when that entry is
deep-indexable and not a Container, and via the general tree walker
(whose lines are then shifted one level deeper) otherwise. -/
theorem claim_c8 (c : Config) (t : String) (kd : List String) (d : List Node)
    (last : Node) (sib : List (Option Node)) (ℓ : Int) (vd : Bool) :
    ndmapping_info c (Node.ndmapping t kd (d ++ [last])) sib ℓ vd =
      if last.deep_indexable && !last.hasChildren then
        ((ndmapping_info c last [] ℓ vd).1,
          ndmap_summary c (Node.ndmapping t kd (d ++ [last])) ℓ ++
            shift (ndmapping_info c last [] ℓ vd).2 1)
      else
        (ℓ, ndmap_summary c (Node.ndmapping t kd (d ++ [last])) ℓ ++
          shift (recurse c last none [] [] ℓ vd) 1) := by
  have hl : (Node.ndmapping t kd (d ++ [last])).dataVals.getLast? = some last :=
    List.getLast?_concat d
  cases hdeep : last.deep_indexable && !last.hasChildren with
  | true =>
    rw [ndmapping_info_last_deep c _ sib ℓ vd last hl hdeep, if_pos rfl]
  | false =>
    rw [ndmapping_info_last_flat c _ sib ℓ vd last hl hdeep,
      if_neg (show ¬(false = true) by simp)]

/-- Claim C9: an empty IndexedMapping rendered with the option overlay
disabled contributes exactly one line — the type tag followed by the
bracketed comma-separated key-dimension names — and nothing more. -/
theorem claim_c9 (c : Config) (t : String) (kd : List String) (ℓ : Int)
    (vd : Bool) (h : c.show_options = false) :
    recurse c (Node.ndmapping t kd []) none [] [] ℓ vd =
      [(ℓ, ":" ++ t ++ tab ++ "[" ++ String.intercalate "," kd ++ "]")] := by
  rw [recurse_eq, node_info_eq]
  have hdis : node_info_dispatch c (Node.ndmapping t kd []) [] ℓ vd =
      ((ndmapping_info c (Node.ndmapping t kd []) [] ℓ vd).1,
        (ndmapping_info c (Node.ndmapping t kd []) [] ℓ vd).2, none) := by
    rw [node_info_dispatch_eq]
    simp [Node.hasChildren, Node.hasMain, Node.deep_indexable]
  have hnd : ndmapping_info c (Node.ndmapping t kd []) [] ℓ vd =
      (ℓ, [(ℓ, ":" ++ t ++ tab ++ "[" ++ String.intercalate "," kd ++ "]")]) := by
    rw [ndmapping_info_empty c (Node.ndmapping t kd []) [] ℓ vd rfl]
    simp [ndmap_summary, option_info_off h, component_type, type_formatter,
      Node.typeName, Node.kdims, String.append_assoc]
  rw [hdis, hnd]
  simp [node_info_finish, Node.childrenKeys, recurse_children_nil]

/-- Witness for C9 on a concrete empty mapping. -/
theorem claim_c9_witness :
    cfg_off.show_options = false ∧
    recurse cfg_off (Node.ndmapping "HoloMap" ["x"] []) none [] [] 0 true =
      [(0, ":" ++ "HoloMap" ++ tab ++ "[" ++
        String.intercalate "," ["x"] ++ "]")] :=
  ⟨rfl, claim_c9 cfg_off "HoloMap" ["x"] 0 true rfl⟩

/-- Claim C10: `padding` succeeds on every nonempty label list, and in
any render call tree every `node_info` invocation carrying a non-null
path segment passes a sibling-segment list containing that segment, so
the `padding` computation is never taken over an empty sequence. -/
theorem claim_c10 :
    (∀ items : List String, items ≠ [] → ∃ m, padding items = some m) ∧
    (∀ (root : Node) (e : Option String × List String),
      e ∈ recurse_calls root none [] →
      ∀ a, e.1 = some a → a ∈ e.2 ∧ ∃ m, padding e.2 = some m) := by
  refine ⟨fun items h => padding_isSome h, ?_⟩
  intro root e he a hea
  have hmem := recurse_calls_sound root none []
    (fun a2 ha2 => by cases ha2) e he a hea
  refine ⟨hmem, padding_isSome ?_⟩
  intro hnil
  rw [hnil] at hmem
  exact absurd hmem (List.not_mem_nil a)

/-- Witness for C10 on a one-child container: the logged child call
carries its own segment in the sibling list and `padding` succeeds. -/
theorem claim_c10_witness :
    ((some "A", ["A"]) : Option String × List String) ∈
      recurse_calls (Node.container "L" false [("A", Node.element "E" [] [])])
        none [] ∧
    ("A" ∈ ["A"] ∧ ∃ m, padding ["A"] = some m) := by
  have hmem : ((some "A", ["A"]) : Option String × List String) ∈
      recurse_calls (Node.container "L" false [("A", Node.element "E" [] [])])
        none [] := by
    rw [recurse_calls]
    refine List.mem_cons_of_mem _ (List.mem_append.mpr (Or.inr ?_))
    show _ ∈ recurse_children_calls
      (Node.container "L" false [("A", Node.element "E" [] [])]) ["A"] ["A"]
    rw [recurse_children_calls_cons]
    refine List.mem_append.mpr (Or.inl ?_)
    show ((some "A", ["A"]) : Option String × List String) ∈
      recurse_calls (Node.element "E" [] []) (some "A") ["A"]
    rw [recurse_calls]
    exact List.mem_cons_self _ _
  exact ⟨hmem, claim_c10.2 _ _ hmem "A" rfl⟩

end PPrint
